import Mathlib

/-!
Verification development for the gotrino-make incremental build engine.

This file gives a shallow embedding of the core of the repository:
the Merkle hash tree (internal/hashtree/hashtree.go), the overlay sync,
source hashing and build pipeline of the builder package, the template
stage (BuildInfo.applyTemplate), and the long-poll HTTP surface
(internal/http).  Go code that performs I/O is modelled by passing the
observed filesystem listing as an explicit value; machine side effects
on the target directory are modelled by an explicit map from relative
paths to file contents.

SHA-256 digests are modelled as injectively tagged byte lists (the
standard collision-free idealisation of a cryptographic hash): hashing
raw contents, hashing a concatenation of fixed-width digests, and the
zero-initialised `[32]byte` are pairwise distinct by construction, and
two digests are equal exactly when their preimages are.
-/

/-- Digest is the model of a `[32]byte` SHA-256 value. -/
abbrev Digest := List Nat

/-- Digest.ofBytes c models `sha256(c)` for raw file contents `c`
(hashtree.Read). -/
def Digest.ofBytes (c : List Nat) : Digest := 0 :: c

/-- Digest.ofDigests ds models `sha256(d1 || d2 || ...)`, the hash of the
concatenation of fixed-width digests, as written by the `hasher.Write`
calls of `ReadDir` and `srcHash`.  The length tags keep the encoding
injective, exactly as fixed-width concatenation is. -/
def Digest.ofDigests (ds : List Digest) : Digest :=
  1 :: ds.foldr (fun d acc => (d.length :: d) ++ acc) []

/-- Digest.zero models the zero-initialised `[32]byte` (a fresh
`hashtree.Node.Hash`, or `Project.lastBuildHash` before/after a reset). -/
def Digest.zero : Digest := [2]

/-- Mode models `os.FileMode`: the directory type bit plus permissions.
`Mode.isDir` is `FileMode.IsDir`; the embedding only distinguishes regular
files from directories, which is all the hashtree code inspects. -/
structure Mode where
  isDir : Bool
  perm : Nat
deriving DecidableEq, Repr

/-- Mode.isRegular models `os.FileMode.IsRegular` (no type bits set). -/
def Mode.isRegular (m : Mode) : Bool := !m.isDir

/-- FsEntry is one entry of a filesystem snapshot as observed through
`ioutil.ReadDir`/`os.FileInfo`: a name, permissions, a ModTime, and either
file contents or a sub-listing.  `badFile` is a regular file whose
`hashtree.Read` fails with an I/O error, used to study error behaviour.
Directory listings are carried in the order `ioutil.ReadDir` returns them
(sorted ascending by filename). -/
inductive FsEntry where
| file (name : String) (perm modTime : Nat) (content : List Nat)
| badFile (name : String) (perm modTime : Nat)
| dir (name : String) (perm modTime : Nat) (entries : List FsEntry)

/-- FsEntry.name models `os.FileInfo.Name`. -/
def FsEntry.name : FsEntry → String
| .file n _ _ _ => n
| .badFile n _ _ => n
| .dir n _ _ _ => n

/-- FsEntry.mode models `os.FileInfo.Mode`: regular files carry no type
bit, directories carry `os.ModeDir`. -/
def FsEntry.mode : FsEntry → Mode
| .file _ p _ _ => ⟨false, p⟩
| .badFile _ p _ => ⟨false, p⟩
| .dir _ p _ _ => ⟨true, p⟩

/-- FsEntry.modTime models `os.FileInfo.ModTime` (an absolute instant,
encoded as a Nat). -/
def FsEntry.modTime : FsEntry → Nat
| .file _ _ t _ => t
| .badFile _ _ t => t
| .dir _ _ t _ => t

/-- Node is `hashtree.Node`: one element of the Merkle tree over the real
filesystem (Hash, Name, Mode, ModTime, Children). -/
inductive Node where
| mk (hash : Digest) (name : String) (mode : Mode) (modTime : Nat) (children : List Node)

/-- Node.hash projects the `Hash` field. -/
def Node.hash : Node → Digest | .mk h _ _ _ _ => h
/-- Node.name projects the `Name` field. -/
def Node.name : Node → String | .mk _ n _ _ _ => n
/-- Node.mode projects the `Mode` field. -/
def Node.mode : Node → Mode | .mk _ _ m _ _ => m
/-- Node.modTime projects the `ModTime` field. -/
def Node.modTime : Node → Nat | .mk _ _ _ t _ => t
/-- Node.children projects the `Children` field. -/
def Node.children : Node → List Node | .mk _ _ _ _ cs => cs

/-- Node.withHash replaces the `Hash` field (the in-place assignment
`node.Hash = h`). -/
def Node.withHash : Node → Digest → Node
| .mk _ n m t cs, h => .mk h n m t cs

/-- Node.withChildren replaces the `Children` field. -/
def Node.withChildren : Node → List Node → Node
| .mk h n m t _, cs => .mk h n m t cs

/-- newNode is `hashtree.NewNode`: the zero value `&Node{}` (zero hash,
empty name, mode 0 = regular, zero ModTime, no children). -/
def newNode : Node := .mk .zero "" ⟨false, 0⟩ 0 []

/-- freshDirNode is the node produced by `Part.refresh` and
`Project.refresh` when (re)setting a tree: `hashtree.NewNode()` followed by
`src.Mode = os.ModeDir`. -/
def freshDirNode : Node := .mk .zero "" ⟨true, 0⟩ 0 []

/-- byteLe is Go's `string <=` comparison on the underlying bytes, here on
the character sequences of the two names (the names in play are ASCII, for
which byte order and character order agree). -/
def byteLe : List Char → List Char → Bool
| [], _ => true
| _ :: _, [] => false
| a :: as, b :: bs =>
  if a.val < b.val then true
  else if b.val < a.val then false
  else byteLe as bs

/-- nameLe a b models Go's `a <= b` on strings. -/
def nameLe (a b : String) : Bool := byteLe a.data b.data

/-- nameLt a b models Go's `a < b` on strings. -/
def nameLt (a b : String) : Bool := !nameLe b a

/-- searchNodeIdx realises the `sort.Search(len(n.Children), ...)` call of
`Node.IndexOf`: the smallest index whose child name is `>= name`, or the
length when there is none.  `sort.Search` is a binary search whose contract
assumes the predicate partitions the slice; the children lists are
maintained sorted by `Node.Add`, on which the linear least-index scan below
returns the same answer. -/
def searchNodeIdx (name : String) : List Node → Nat
| [] => 0
| c :: cs => if nameLe name c.name then 0 else searchNodeIdx name cs + 1

/-- Node.indexOf is `hashtree.Node.IndexOf`: the index of the child with
the given name, or -1. -/
def Node.indexOf (n : Node) (name : String) : Int :=
  let idx := searchNodeIdx name n.children
  match n.children.get? idx with
  | some c => if c.name = name then (idx : Int) else -1
  | none => -1

/-- Node.find is `hashtree.Node.Find`: the first child with the given name,
or nil. -/
def Node.find (n : Node) (name : String) : Option Node :=
  let idx := searchNodeIdx name n.children
  match n.children.get? idx with
  | some c => if c.name = name then some c else none
  | none => none

/-- Node.remove is `hashtree.Node.Remove`: delete the first child with that
name (via `IndexOf` and `RemoveAt`, which shifts the tail down). -/
def Node.remove (n : Node) (name : String) : Node :=
  let idx := searchNodeIdx name n.children
  match n.children.get? idx with
  | some c =>
    if c.name = name then n.withChildren (n.children.eraseIdx idx) else n
  | none => n

/-- insertSortedNode inserts a node into a name-sorted list, realising the
`sort.Slice(n.Children, Name <)` call of `Node.Add` (on the lists `Add`
produces — sorted before the append — one insertion pass is exactly what
the sort computes). -/
def insertSortedNode (c : Node) : List Node → List Node
| [] => [c]
| d :: ds => if nameLt d.name c.name then d :: insertSortedNode c ds else c :: d :: ds

/-- sortNodes sorts a children list ascending by name (insertion sort). -/
def sortNodes : List Node → List Node
| [] => []
| c :: cs => insertSortedNode c (sortNodes cs)

/-- Node.add is `hashtree.Node.Add`: remove any child of the same name,
append, and re-sort ascending by name. -/
def Node.add (n : Node) (child : Node) : Node :=
  let r := n.remove child.name
  n.withChildren (sortNodes (r.children ++ [child]))

/-- Node.updateChild replaces the child of the same name with the given
node.  This is not a function of the Go source: it makes explicit the
pointer aliasing by which `ReadDir`'s in-place mutation of an existing
child node is visible in the parent even when `ReadDir` then fails. -/
def Node.updateChild (n : Node) (c : Node) : Node :=
  n.withChildren (n.children.map (fun d => if d.name = c.name then c else d))

/-- fileIgnored is `hashtree.fileIgnored`: empty names and names starting
with a dot are ignored entirely. -/
def fileIgnored (name : String) : Bool :=
  match name.data with
  | [] => true
  | c :: _ => c = '.'

/-- shortcutHit is the ModTime shortcut test of `ReadDir`:
`node != nil && node.Mode.IsRegular() && node.Mode == file.Mode() &&
node.ModTime == file.ModTime()`. -/
def shortcutHit (found : Option Node) (m : Mode) (mt : Nat) : Bool :=
  match found with
  | some node => node.mode.isRegular && decide (node.mode = m) && decide (node.modTime = mt)
  | none => false

/-- cachedKeep is the complement of the node-replacement test of `ReadDir`
(`node == nil || node.Mode != file.Mode()` creates a fresh node): true when
the existing child node is kept and hence mutated in place. -/
def cachedKeep (found : Option Node) (m : Mode) : Bool :=
  match found with
  | some node => decide (node.mode = m)
  | none => false

/-- freshOrCached is the node `ReadDir` works on for one directory entry:
the existing child when present with unchanged mode, else a fresh
`&Node{Name, Mode, ModTime}`. -/
def freshOrCached (found : Option Node) (name : String) (m : Mode) (mt : Nat) : Node :=
  match found with
  | some node => if node.mode = m then node else .mk .zero name m mt []
  | none => .mk .zero name m mt []

mutual
/-- readDirStep processes the per-entry body of `ReadDir`'s loop once the
working node is chosen: regular files get `node.Hash = sha256(contents)`
(`hashtree.Read`), directories recurse via `ReadDir(absolutePath, node)`,
and a failing read returns the error with the node untouched (the hash is
assigned only after a successful read).  The Bool is false on error. -/
def readDirStep (e : FsEntry) (node : Node) : Bool × Node :=
  match e with
  | .file _ _ _ content => (true, node.withHash (.ofBytes content))
  | .badFile _ _ _ => (false, node)
  | .dir _ _ _ es => readDirGo es node [] []

/-- readDirGo is the loop body and epilogue of `hashtree.ReadDir` over the
directory listing `es` (as returned by `ioutil.ReadDir`: sorted ascending
by name).  `currentFiles` collects the names actually seen and `digs` the
digests written to the running `sha256` hasher, in loop order.  On success
the returned node has its children purged of absent names and its hash set
to the hasher's sum; on error the node is returned as mutated so far, its
hash untouched.  Note that an entry skipped by the ModTime shortcut
contributes its name to `currentFiles` but writes nothing to the hasher
(the `continue` sits before `hasher.Write`). -/
def readDirGo (es : List FsEntry) (parent : Node) (currentFiles : List String)
    (digs : List Digest) : Bool × Node :=
  match es with
  | [] =>
    -- purge files which are absent, then update the merkle root hash
    let purged := parent.children.foldl
      (fun p c => if currentFiles.contains c.name then p else p.remove c.name) parent
    (true, purged.withHash (.ofDigests digs))
  | e :: rest =>
    if fileIgnored e.name then readDirGo rest parent currentFiles digs
    else
      let cur2 := currentFiles ++ [e.name]
      let found := parent.find e.name
      if shortcutHit found e.mode e.modTime then
        -- file not changed, do not read the file: no hasher.Write happens
        readDirGo rest parent cur2 digs
      else
        let node0 := freshOrCached found e.name e.mode e.modTime
        match readDirStep e node0 with
        | (false, node2) =>
          -- an existing child mutated in place stays visible after the error
          (false, if cachedKeep found e.mode then parent.updateChild node2 else parent)
        | (true, node2) =>
          readDirGo rest (parent.add node2) cur2 (digs ++ [node2.hash])
end

/-- readDir is `hashtree.ReadDir(rootDir, parent)`: `es` is the listing of
`rootDir`.  The Bool is false when the traversal hit an I/O error; the
returned node is the caller's `parent` as left behind (Go mutates it in
place). -/
def readDir (es : List FsEntry) (parent : Node) : Bool × Node :=
  readDirGo es parent [] []

-- quick sanity examples (kept as anonymous examples, they are not claims)
example :
    readDir [.file "a" 6 10 [1, 2]] newNode =
      (true, Node.mk (.ofDigests [.ofBytes [1, 2]]) "" ⟨false, 0⟩ 0
        [.mk (.ofBytes [1, 2]) "a" ⟨false, 6⟩ 10 []]) := rfl

example :
    (readDir [.file ".hidden" 6 10 [9], .file "a" 6 10 [1]] newNode).2.children.length = 1 := by
  decide

/-- File is `hashtree.File`: a flattened view of one tree node.  The Go
field `Prefix` (the absolute root the node was read from) is called `pfx`
here; `filename` is the path relative to it. -/
structure File where
  pfx : String
  filename : String
  node : Node

/-- pjoin models `filepath.Join` on two already-clean path fragments:
empty fragments disappear, otherwise the parts are joined with a slash. -/
def pjoin (a b : String) : String :=
  if a = "" then b else if b = "" then a else a ++ "/" ++ b

mutual
/-- flattenOne is `hashtree.Node.flatten(prefix, root)`: emit the node
itself, then each child under the extended relative root. -/
def flattenOne (n : Node) (pfx root : String) : List File :=
  match n with
  | .mk h nm m t cs =>
    ⟨pfx, pjoin root nm, .mk h nm m t cs⟩ :: flattenMany cs pfx (pjoin root nm)

/-- flattenMany flattens a children list in order (the `for _, child`
loop of `flatten`). -/
def flattenMany (cs : List Node) (pfx root : String) : List File :=
  match cs with
  | [] => []
  | c :: rest => flattenOne c pfx root ++ flattenMany rest pfx root
end

/-- Node.flatten is `hashtree.Node.Flatten(prefix)`. -/
def Node.flatten (n : Node) (pfx : String) : List File := flattenOne n pfx ""

/-- mapPut models one `tmp[file.Filename] = file` assignment of `PutTop`
on a Go map represented as an association list with unique keys (insert
replaces the value at an existing key, otherwise appends). -/
def mapPut (m : List (String × File)) (f : File) : List (String × File) :=
  if m.any (fun kv => kv.1 = f.filename) then
    m.map (fun kv => if kv.1 = f.filename then (kv.1, f) else kv)
  else m ++ [(f.filename, f)]

/-- insertSortedFile inserts into a filename-sorted list, realising the
`sort.Slice(res, Filename <)` call of `PutTop` (the keys are unique, so
any correct sort yields this result regardless of Go's map iteration
order). -/
def insertSortedFile (f : File) : List File → List File
| [] => [f]
| g :: gs => if nameLt g.filename f.filename then g :: insertSortedFile f gs else f :: g :: gs

/-- sortFiles sorts ascending by filename (insertion sort). -/
def sortFiles : List File → List File
| [] => []
| f :: fs => insertSortedFile f (sortFiles fs)

/-- PutTop is `hashtree.PutTop(dst, src)`: the union keyed on Filename in
which entries of `src` win, sorted ascending by Filename. -/
def PutTop (dst src : List File) : List File :=
  let m := src.foldl mapPut (dst.foldl mapPut [])
  sortFiles (m.map (fun kv => kv.2))

/-- searchFileIdx realises the `sort.Search` call of `FindFile` (same
contract as `searchNodeIdx`: least index with filename `>= name`). -/
def searchFileIdx (name : String) : List File → Nat
| [] => 0
| f :: fs => if nameLe name f.filename then 0 else searchFileIdx name fs + 1

/-- FindFile is `hashtree.FindFile(s, name)`: the index of the entry with
that filename in an ascending list, or -1. -/
def FindFile (s : List File) (name : String) : Int :=
  let idx := searchFileIdx name s
  match s.get? idx with
  | some f => if f.filename = name then (idx : Int) else -1
  | none => -1

/-- Disk models the target directory's regular files on disk as a map from
slash-joined path relative to `dstPath` to contents.  Directories are
implicit (MkdirAll is a no-op here). -/
abbrev Disk := List (String × List Nat)

/-- diskGet looks a relative path up. -/
def diskGet (d : Disk) (path : String) : Option (List Nat) :=
  match d.find? (fun pc => pc.1 = path) with
  | some pc => some pc.2
  | none => none

/-- diskWrite models `ioutil.WriteFile`/`io.CopyFile` to a path under
`dstPath`: overwrite or create. -/
def diskWrite (d : Disk) (path : String) (content : List Nat) : Disk :=
  if d.any (fun pc => pc.1 = path) then
    d.map (fun pc => if pc.1 = path then (pc.1, content) else pc)
  else d ++ [(path, content)]

/-- pathCovers p q holds when `os.RemoveAll` of relative path p deletes q:
q is p itself or lies strictly below it (p = "" is the whole target
directory). -/
def pathCovers (p q : String) : Bool :=
  p = q || p = "" || (p.data ++ ['/']).isPrefixOf q.data

/-- diskRemoveAll models `os.RemoveAll` of a path relative to `dstPath`. -/
def diskRemoveAll (d : Disk) (p : String) : Disk :=
  d.filter (fun pc => !pathCovers p pc.1)

/-- GoModule is `gotool.Module` (a parsed `go list -m` entry). -/
structure GoModule where
  path : String
  dir : String
  version : String
  main : Bool
deriving DecidableEq, Repr

/-- BuildPart is `builder.Part`: one module together with the hash tree of
its subtree; `src = none` is the nil pointer before the first refresh.
(Named BuildPart here because Mathlib already has a `Part`.) -/
structure BuildPart where
  mod : GoModule
  src : Option Node

/-- BuildPart.srcNode reads the tree behind the pointer (refresh always runs
before any use, so the nil case is unreachable in the modelled flows). -/
def BuildPart.srcNode (p : BuildPart) : Node := p.src.getD newNode

/-- BuildPart.refresh is `builder.Part.refresh(force, subDir)`, with the
listing of `filepath.Join(p.mod.Dir, subDir)` passed explicitly: `none`
when `os.Stat` reports the directory as absent.  The tree is reset to a
fresh directory node when it is nil, when force is set, or when the
directory does not exist; an absent directory then returns successfully
without reading anything.  The Bool is false when `ReadDir` failed (the
partially updated tree is kept, as in Go). -/
def BuildPart.refresh (p : BuildPart) (force : Bool) (fsOpt : Option (List FsEntry)) : Bool × BuildPart :=
  let src0 : Node :=
    match p.src with
    | none => freshDirNode
    | some s => if force || fsOpt.isNone then freshDirNode else s
  match fsOpt with
  | none => (true, { p with src := some src0 })
  | some es =>
    match readDir es src0 with
    | (ok, n) => (ok, { p with src := some n })

/-- hashDiffers is the second disjunct of the copy test of `Project.sync`:
`file.Node.Hash != dstTree[idx].Node.Hash` (evaluated when idx is a real
index). -/
def hashDiffers (dstTree : List File) (idx : Int) (f : File) : Bool :=
  match dstTree.get? idx.toNat with
  | some g => decide (f.node.hash ≠ g.node.hash)
  | none => true

/-- SyncResult carries the outcome of `Project.sync`: the target disk
after the copy and prune passes, the relative paths of the files actually
copied, and the two flattened trees the passes worked on. -/
structure SyncResult where
  disk : Disk
  copies : List String
  srcTree : List File
  dstTree : List File

/-- srcOverlay is the overlay-assembly loop of `Project.sync`: iterate the
parts from last to first (`for i := len(p.mods) - 1; i >= 0; i--`) merging
each flattened static tree on top with `PutTop`, so the main module (index
0, merged last) wins on conflicts.  `parts` pairs each part's flatten
prefix `filepath.Join(mod.Dir, "static")` with its tree, in natural order
(main first). -/
def srcOverlay (parts : List (String × Node)) : List File :=
  parts.reverse.foldl (fun acc pn => PutTop acc (Node.flatten pn.2 pn.1)) []

/-- syncCopyPass is the copy loop of `Project.sync`: for every overlay
entry missing from the target tree or differing in hash, directories are
MkdirAll'ed (no disk effect here) and files are copied from
`join(f.Prefix, f.Filename)` — contents supplied by `fetch` — to
`join(dstPath, f.Filename)`. -/
def syncCopyPass (srcTree dstTree : List File) (disk : Disk)
    (fetch : String → String → List Nat) : Disk × List String :=
  srcTree.foldl
    (fun st f =>
      let idx := FindFile dstTree f.filename
      if idx = -1 ∨ hashDiffers dstTree idx f then
        if f.node.mode.isDir then st
        else (diskWrite st.1 f.filename (fetch f.pfx f.filename), st.2 ++ [f.filename])
      else st)
    (disk, [])

/-- syncPrunePass is the remove-extra-files loop of `Project.sync`: every
target-tree entry whose Filename is absent from the overlay and whose
absolute path `join(g.Prefix, g.Filename)` is not an extra destination
file is removed recursively. -/
def syncPrunePass (srcTree dstTree : List File) (extraDstFiles : List String)
    (disk : Disk) : Disk :=
  dstTree.foldl
    (fun dk g =>
      if FindFile srcTree g.filename = -1 ∧
          ¬ extraDstFiles.contains (pjoin g.pfx g.filename) then
        diskRemoveAll dk g.filename
      else dk)
    disk

/-- projectSync is `builder.Project.sync`: assemble the overlay, flatten
the target tree, run the copy pass, then the prune pass. -/
def projectSync (parts : List (String × Node)) (dstPath : String) (dstNode : Node)
    (extraDstFiles : List String) (disk : Disk)
    (fetch : String → String → List Nat) : SyncResult :=
  let srcTree := srcOverlay parts
  let dstTree := dstNode.flatten dstPath
  let cp := syncCopyPass srcTree dstTree disk fetch
  let disk2 := syncPrunePass srcTree dstTree extraDstFiles cp.1
  ⟨disk2, cp.2, srcTree, dstTree⟩

/-- Project is `builder.Project`: the long-lived in-memory state that makes
incremental rebuilds possible. -/
structure Project where
  srcPath : String
  main : BuildPart
  mods : List BuildPart
  dst : Option Node
  dstPath : String
  extraDstFiles : List String
  lastBuildHash : Digest

/-- BuildOptions is `builder.Options` (the fields the modelled pipeline
inspects; Extra and Debug only feed templates and logging). -/
structure BuildOptions where
  force : Bool
  hotReload : Bool
  templatePatterns : List String
  goGenerate : Bool

/-- World is the per-call snapshot of everything `Project.Build` observes
outside its own state: the module list the toolchain reports, the
directory listings, the target-directory contents, the copy-time reads,
and the outcomes of the external toolchain calls. -/
structure World where
  mods : List GoModule
  modTidyOk : Bool
  staticFs : String → Option (List FsEntry)
  mainFs : Option (List FsEntry)
  dstFs : List FsEntry
  dstDisk : Disk
  fetch : String → String → List Nat
  buildWasmErr : Option String
  wasmBytes : List Nat
  generateOk : Bool
  render : List Nat → Option (List Nat)

/-- partsDiffer is the pairwise comparison loop of `Project.loadMods`:
true when some position differs in Dir or Version (lists of equal
length; a length difference is checked before). -/
def partsDiffer : List GoModule → List BuildPart → Bool
| [], [] => false
| m :: ms, q :: qs =>
  decide (m.dir ≠ q.mod.dir) || decide (m.version ≠ q.mod.version) || partsDiffer ms qs
| _, _ => true

/-- loadMods is `builder.Project.loadMods`: run `go mod tidy` and
`go list -m`, fail when no module is returned or the first is not the main
module, and rebuild the cached parts from scratch exactly when the list
shape changed (dropping the cached hash trees); otherwise keep them so the
ModTime shortcuts stay hot.  The Bool is false on failure. -/
def Project.loadMods (p : Project) (w : World) : Bool × Project :=
  if !w.modTidyOk then (false, p)
  else
    match w.mods with
    | [] => (false, p)
    | m0 :: _ =>
      if !m0.main then (false, p)
      else
        let rebuild := w.mods.length ≠ p.mods.length ∨ partsDiffer w.mods p.mods
        if rebuild then
          (true, { p with mods := w.mods.map (fun m => ⟨m, none⟩), main := ⟨m0, none⟩ })
        else (true, p)

/-- refreshParts runs `Part.refresh` over the parts in order, stopping at
the first error (the loop in `Project.refresh`); parts after a failing one
are left untouched. -/
def refreshParts (staticFs : String → Option (List FsEntry)) (force : Bool) :
    List BuildPart → Bool × List BuildPart
| [] => (true, [])
| q :: qs =>
  match q.refresh force (staticFs q.mod.dir) with
  | (false, q2) => (false, q2 :: qs)
  | (true, q2) =>
    match refreshParts staticFs force qs with
    | (ok, qs2) => (ok, q2 :: qs2)

/-- Project.refresh is `builder.Project.refresh(force)`: refresh every
part's static tree, then the main part over the whole module directory,
then the target tree over dstPath (resetting the target tree first when it
is nil or force is set).  The Bool is false on the first error; the state
reached so far is kept. -/
def Project.refresh (p : Project) (force : Bool) (w : World) : Bool × Project :=
  match refreshParts w.staticFs force p.mods with
  | (false, ms) => (false, { p with mods := ms })
  | (true, ms) =>
    match p.main.refresh force w.mainFs with
    | (false, mn) => (false, { p with mods := ms, main := mn })
    | (true, mn) =>
      let dst0 : Node :=
        match p.dst with
        | none => freshDirNode
        | some d => if force then freshDirNode else d
      match readDir w.dstFs dst0 with
      | (ok, d2) => (ok, { p with mods := ms, main := mn, dst := some d2 })

/-- Project.srcHash is `builder.Project.srcHash`: the uber hash, sha256 of
the concatenation of every part's tree hash (in declared module order)
followed by the main part's tree hash. -/
def Project.srcHash (p : Project) : Digest :=
  .ofDigests ((p.mods.map (fun q => q.srcNode.hash)) ++ [p.main.srcNode.hash])

/-- extOf is `filepath.Ext`: the suffix starting at the final dot of the
final path element, empty when there is none. -/
def extOf (s : String) : String :=
  let rev := s.data.reverse
  let tl := rev.takeWhile (fun c => !(c = '.' || c = '/'))
  match rev.drop tl.length with
  | c :: _ => if c = '.' then ⟨'.' :: tl.reverse⟩ else ""
  | [] => ""

/-- lowerStr is `strings.ToLower` (ASCII names). -/
def lowerStr (s : String) : String := ⟨s.data.map Char.toLower⟩

/-- hasGoExtPfx is the `strings.HasPrefix(myExt, ".go")` test of
`applyTemplate` — a case-sensitive byte comparison. -/
def hasGoExtPfx (ext : String) : Bool :=
  match ext.data with
  | '.' :: 'g' :: 'o' :: _ => true
  | _ => false

/-- stripGoDst computes the output filename of `BuildInfo.applyTemplate`:
when the extension starts with ".go" the output is the input with the
`go` stripped from the extension (`fname[0:len(fname)-len(ext)] + "." +
ext[3:]`), otherwise the input name itself. -/
def stripGoDst (fname : String) : String :=
  let myExt := extOf fname
  if hasGoExtPfx myExt then
    ⟨(fname.data.take (fname.data.length - myExt.data.length)) ++ ('.' :: myExt.data.drop 3)⟩
  else fname

/-- templateMatches is the pattern test of Build's template loop:
`strings.ToLower(filepath.Ext(file))` equals one of
`opts.TemplatePatterns`. -/
def templateMatches (patterns : List String) (fname : String) : Bool :=
  patterns.contains (lowerStr (extOf fname))

/-- applyTemplateD is `builder.BuildInfo.applyTemplate(fname)` at the disk
level: read the file, parse and execute it as a template (`render` returns
none on a parse or execute error, in which case nothing is written), write
the rendered bytes to the stripped filename, and remove the original if
the name changed. -/
def applyTemplateD (render : List Nat → Option (List Nat)) (dk : Disk)
    (fname : String) : Except String Disk :=
  match diskGet dk fname with
  | none => .error "unable to read template file"
  | some content =>
    match render content with
    | none => .error "unable to parse or execute the template"
    | some out =>
      let dstFile := stripGoDst fname
      let dk2 := diskWrite dk dstFile out
      if dstFile ≠ fname then .ok (diskRemoveAll dk2 fname) else .ok dk2

/-- splitSegsGo splits on slashes, carrying the current segment reversed
(a structurally recursive stand-in for `strings.Split(p, "/")`). -/
def splitSegsGo : List Char → List Char → List String
| cur, [] => [String.mk cur.reverse]
| cur, c :: rest =>
  if c = '/' then String.mk cur.reverse :: splitSegsGo [] rest
  else splitSegsGo (c :: cur) rest

/-- splitSegs splits a relative slash path into its segments. -/
def splitSegs (p : String) : List String := splitSegsGo [] p.data

/-- visibleWalkPath is the filter of `builder.listAllFiles`: filepath.Walk
skips dot-prefixed directories (SkipDir), so a file is listed exactly when
no directory component of its path starts with a dot (the file's own name
is not filtered — only directories are skipped). -/
def visibleWalkPath (p : String) : Bool :=
  (splitSegs p).dropLast.all (fun s => !(fileIgnored s))

/-- insertSortedStr inserts into an ascending string list (filepath.Walk
visits in lexical order). -/
def insertSortedStr (s : String) : List String → List String
| [] => [s]
| t :: ts => if nameLt t s then t :: insertSortedStr s ts else s :: t :: ts

/-- sortStrs sorts ascending (insertion sort). -/
def sortStrs : List String → List String
| [] => []
| s :: ss => insertSortedStr s (sortStrs ss)

/-- listAllFiles is `builder.listAllFiles(dstPath)` on the disk model: all
regular files under the target, in lexical walk order, with dot-prefixed
directories skipped. -/
def listAllFiles (dk : Disk) : List String :=
  (sortStrs (dk.map (fun pc => pc.1))).filter visibleWalkPath

/-- TemplateOutcome is the state Build's GoTemplateLoop threads: the disk,
the (first) compile error, and the files it applied templates to. -/
structure TemplateOutcome where
  disk : Disk
  compileError : Option String
  processed : List String

/-- templateLoop is Build's GoTemplateLoop: apply the template to every
pattern-matched file; a template failure is recorded as the compile error
and breaks the loop only when no compile error is present yet (a wasm
compile error is kept and the loop carries on, merely logging). -/
def templateLoop (render : List Nat → Option (List Nat)) (patterns : List String) :
    List String → Disk → Option String → List String → TemplateOutcome
| [], dk, ce, done => ⟨dk, ce, done⟩
| f :: fs, dk, ce, done =>
  if templateMatches patterns f then
    match applyTemplateD render dk f with
    | .ok dk2 => templateLoop render patterns fs dk2 ce (done ++ [f])
    | .error e =>
      if ce.isNone then ⟨dk, some e, done ++ [f]⟩
      else templateLoop render patterns fs dk ce (done ++ [f])
  else templateLoop render patterns fs dk ce done

/-- BuildResult records one `Project.Build(opts)` call: whether it failed
fatally, whether the unchanged-hash early return fired, whether
`gotool.BuildWasm` was invoked, whether the template stage ran, the
compile error (if any), the files copied by the sync copy pass, the files
the template stage processed, the returned hash, the target disk, and the
new project state. -/
structure BuildResult where
  fatal : Bool
  earlyReturn : Bool
  buildWasmInvoked : Bool
  templateStageReached : Bool
  compileError : Option String
  copies : List String
  templProcessed : List String
  ret : Digest
  disk : Disk
  proj : Project

/-- wasmFilename is the `app.wasm` constant. -/
def wasmFilename : String := "app.wasm"

/-- Project.build is `builder.Project.Build(opts)`.  Steps in source
order: MkdirAll dstPath (no disk effect modelled), loadMods, refresh,
compute the uber hash and return early when it equals lastBuildHash,
optionally go-generate plus re-refresh, zero lastBuildHash, sync, invoke
BuildWasm (a failure populates CompileError, a success writes app.wasm and
sets Wasm), run the template stage over all listed files, and finally
either return the (still zero) lastBuildHash together with the compile
error, or store and return the uber hash. -/
def Project.build (p : Project) (opts : BuildOptions) (w : World) : BuildResult :=
  match p.loadMods w with
  | (false, p1) => ⟨true, false, false, false, none, [], [], p1.lastBuildHash, w.dstDisk, p1⟩
  | (true, p1) =>
    match p1.refresh opts.force w with
    | (false, p2) => ⟨true, false, false, false, none, [], [], p2.lastBuildHash, w.dstDisk, p2⟩
    | (true, p2) =>
      let uberHash := p2.srcHash
      if uberHash = p2.lastBuildHash then
        ⟨false, true, false, false, none, [], [], p2.lastBuildHash, w.dstDisk, p2⟩
      else
        match (if opts.goGenerate then
                 (if w.generateOk then
                    match p2.refresh opts.force w with
                    | (ok, p3) => (ok, p3)
                  else (false, p2))
               else (true, p2)) with
        | (false, p3) => ⟨true, false, false, false, none, [], [], p3.lastBuildHash, w.dstDisk, p3⟩
        | (true, p3) =>
          let p4 := { p3 with lastBuildHash := Digest.zero }
          let parts := p4.mods.map (fun q => (pjoin q.mod.dir "static", q.srcNode))
          let sync := projectSync parts p4.dstPath (p4.dst.getD freshDirNode)
            p4.extraDstFiles w.dstDisk w.fetch
          let (ce0, dk0) :=
            match w.buildWasmErr with
            | some e => (some e, sync.disk)
            | none => (none, diskWrite sync.disk wasmFilename w.wasmBytes)
          let t := templateLoop w.render opts.templatePatterns (listAllFiles dk0) dk0 ce0 []
          if t.compileError.isSome then
            ⟨false, false, true, true, t.compileError, sync.copies, t.processed,
              p4.lastBuildHash, t.disk, p4⟩
          else
            let p5 := { p4 with lastBuildHash := uberHash }
            ⟨false, false, true, true, none, sync.copies, t.processed,
              uberHash, t.disk, p5⟩

/-- queueCapacity is the capacity of the `awaiting` channel
(`make(chan chan string, 10_000)`). -/
def queueCapacity : Nat := 10000

/-- serverAwait is `http.Server.await`: send a fresh one-slot channel on
the `awaiting` channel and hand it back.  A buffered channel send returns
immediately while the buffer has room and otherwise blocks the goroutine;
the model returns the grown queue, or `none` for the blocked case (the
code has no non-blocking path: see the TODO in the source). -/
def serverAwait (queue : List Unit) : Option (List Unit) :=
  if queue.length < queueCapacity then some (queue ++ [()]) else none

/-- PollResponse enumerates every response `http.Server.pollVersion` can
produce: a 200 with the JSON version body, or a 205 when the 50 s timeout
fires first.  There is no other branch in the handler. -/
inductive PollResponse where
| okJson (version : String)
| resetContent
deriving DecidableEq, Repr

/-- statusCode maps the handler responses to their HTTP status codes. -/
def PollResponse.statusCode : PollResponse → Nat
| .okJson _ => 200
| .resetContent => 205

/-- pollVersion is the select statement of `http.Server.pollVersion`:
deliver the version as JSON when one arrives within 50 s, else 205. -/
def pollVersion (delivered : Option String) : PollResponse :=
  match delivered with
  | some v => .okJson v
  | none => .resetContent

/-- merkleRootOk states the directory-hash invariant the specification
claims for `ReadDir`: the node's hash is the sha256 of the concatenation
of ALL of its children's hashes in stored (ascending name) order. -/
def merkleRootOk (n : Node) : Prop :=
  n.hash = Digest.ofDigests (n.children.map Node.hash)

mutual
/-- filesOfEntry enumerates the regular files beneath one filesystem
entry as (path segments, contents) pairs.  This is statement vocabulary
for the on-disk contents of a directory snapshot, not a translation of a
source function. -/
def filesOfEntry : FsEntry → List (List String × List Nat)
| .file n _ _ c => [([n], c)]
| .badFile n _ _ => [([n], [])]
| .dir n _ _ es => (filesOfList es).map (fun qc => (n :: qc.1, qc.2))

/-- filesOfList enumerates the regular files of a listing. -/
def filesOfList : List FsEntry → List (List String × List Nat)
| [] => []
| e :: rest => filesOfEntry e ++ filesOfList rest
end

/-- joinSegs joins path segments the way the flatten walk does
(`filepath.Join` pairwise from the empty relative root). -/
def joinSegs (segs : List String) : String := segs.foldl pjoin ""

mutual
/-- wfEntry: a snapshot is well formed when every directory listing has
pairwise distinct names (true of any real directory). -/
def wfEntry : FsEntry → Bool
| .file _ _ _ _ => true
| .badFile _ _ _ => true
| .dir _ _ _ es => wfList es

/-- wfList: pairwise distinct names, recursively well formed. -/
def wfList : List FsEntry → Bool
| [] => true
| e :: rest => wfEntry e && rest.all (fun e2 => decide (e2.name ≠ e.name)) && wfList rest
end

/-- Node.hasPath n segs: walking the child links along segs from n stays
inside the tree.  Statement vocabulary for coverage of the flattened
tree. -/
def Node.hasPath : Node → List String → Prop
| _, [] => True
| n, s :: rest => ∃ c ∈ n.children, c.name = s ∧ c.hasPath rest

/-- oneFileModule is a minimal main module for concrete scenarios. -/
def oneFileModule : GoModule := ⟨"example.com/app", "/src/app", "v0.0.0", true⟩

/-- oneFileWorld is a fixed filesystem snapshot: the main module holds the
single source file a.go, ships no static directory, the target directory
holds only the wasm bridge, and the toolchain succeeds. -/
def oneFileWorld : World where
  mods := [oneFileModule]
  modTidyOk := true
  staticFs := fun _ => none
  mainFs := some [.file "a.go" 6 10 [1]]
  dstFs := [.file "wasm_exec.js" 6 5 [9]]
  dstDisk := [("wasm_exec.js", [9])]
  fetch := fun _ _ => []
  buildWasmErr := none
  wasmBytes := [7]
  generateOk := true
  render := fun c => some c

/-- oneFileProject is the project state right after NewProject for the
snapshot above (bridge copied, hence the extra destination file). -/
def oneFileProject : Project where
  srcPath := "/src/app"
  main := ⟨oneFileModule, none⟩
  mods := [⟨oneFileModule, none⟩]
  dst := none
  dstPath := "/tmp/build"
  extraDstFiles := ["/tmp/build/wasm_exec.js"]
  lastBuildHash := Digest.zero

/-- defaultPatterns is the default template pattern list. -/
def defaultPatterns : List String := [".gohtml", ".gocss", ".gojs", ".gojson", ".goxml"]

/-- plainOpts: no force, hot reload, default patterns, no go generate. -/
def plainOpts : BuildOptions := ⟨false, true, defaultPatterns, false⟩

/-- buildRun1 is the first Build over the unchanged snapshot. -/
def buildRun1 : BuildResult := oneFileProject.build plainOpts oneFileWorld

/-- oneFileWorld2 is the same source snapshot at the time of the second
Build: nothing changed except that the first build materialised app.wasm
in the target directory. -/
def oneFileWorld2 : World :=
  { oneFileWorld with
    dstFs := [.file "app.wasm" 6 6 [7], .file "wasm_exec.js" 6 5 [9]]
    dstDisk := buildRun1.disk }

/-- buildRun2 is the back-to-back second Build with no filesystem change. -/
def buildRun2 : BuildResult := buildRun1.proj.build plainOpts oneFileWorld2

/-- C1: the claim says a directory node's Hash is the SHA-256 of ALL of
its children's hashes in sorted-name order, whether or not a child hash
was reused via the ModTime shortcut.  The code violates this: on a re-read
of an unchanged directory the reused child's hash is never written to the
hasher (the shortcut's continue precedes hasher.Write), so the directory
hash becomes the hash of an empty concatenation even though the child is
still present.  The first (fresh) read satisfies the invariant, the second
read over the identical listing does not. -/
theorem c1_dir_hash_skips_modtime_reused_children :
    (readDir [.file "a" 6 10 [1, 2]] freshDirNode).1 = true ∧
    merkleRootOk (readDir [.file "a" 6 10 [1, 2]] freshDirNode).2 ∧
    (readDir [.file "a" 6 10 [1, 2]] (readDir [.file "a" 6 10 [1, 2]] freshDirNode).2).1 = true ∧
    (readDir [.file "a" 6 10 [1, 2]] (readDir [.file "a" 6 10 [1, 2]] freshDirNode).2).2.children
      = (readDir [.file "a" 6 10 [1, 2]] freshDirNode).2.children ∧
    ¬ merkleRootOk (readDir [.file "a" 6 10 [1, 2]]
        (readDir [.file "a" 6 10 [1, 2]] freshDirNode).2).2 := by
  refine ⟨rfl, ?_, rfl, rfl, ?_⟩
  · unfold merkleRootOk; decide
  · unfold merkleRootOk; decide

/-- C2: the claim says Project.SrcHash is identical whether the trees were
read fresh or re-read with the ModTime shortcut.  On the fixed snapshot
oneFileWorld both refreshes succeed, yet the uber hash after the second
(shortcut) refresh differs from the one after the fresh read, because the
reused file hash is dropped from the main tree's directory hash. -/
theorem c2_srchash_differs_between_fresh_and_cached_refresh :
    (oneFileProject.refresh false oneFileWorld).1 = true ∧
    ((oneFileProject.refresh false oneFileWorld).2.refresh false oneFileWorld).1 = true ∧
    (oneFileProject.refresh false oneFileWorld).2.srcHash ≠
      ((oneFileProject.refresh false oneFileWorld).2.refresh false oneFileWorld).2.srcHash := by
  refine ⟨rfl, rfl, by decide⟩

/-- C3: the claim says a second back-to-back Build returns the identical
LastBuildHash, performs zero copies and skips BuildWasm via the early
return.  In the code the second refresh changes the uber hash (see C1/C2),
so the early return does not fire: the second build performs zero file
copies, but it does invoke BuildWasm and returns a different hash. -/
theorem c3_second_build_not_idempotent :
    buildRun1.fatal = false ∧ buildRun2.fatal = false ∧
    buildRun2.copies = [] ∧
    buildRun2.earlyReturn = false ∧
    buildRun2.buildWasmInvoked = true ∧
    buildRun2.ret ≠ buildRun1.ret := by decide

/-- C4 counterexample: the claim says that after an I/O error the tree is
left in its pre-call state.  Reading a directory whose listing is the file
a followed by the unreadable file b fails, yet the caller's node — empty
before the call — now carries the freshly added child a: the partial
update is observable. -/
theorem c4_error_leaves_partial_update_visible :
    (readDir [.file "a" 6 10 [1], .badFile "b" 6 11] freshDirNode).1 = false ∧
    (readDir [.file "a" 6 10 [1], .badFile "b" 6 11] freshDirNode).2.children.length = 1 ∧
    freshDirNode.children.length = 0 := by decide

/-- C9: the claim says that on a full version-subscription queue Subscribe
reports saturation and the poll handler answers 503 with Retry-After: 1.
The code instead blocks: the channel send in await has no non-blocking
path (modelled as none on a full queue), and the handler's select can only
ever produce 200 or 205 — no 503 exists in the handler. -/
theorem c9_full_queue_blocks_and_no_503_exists :
    serverAwait (List.replicate queueCapacity ()) = none ∧
    ∀ d : Option String, (pollVersion d).statusCode ≠ 503 := by
  constructor
  · simp [serverAwait]
  · intro d
    cases d <;> simp [pollVersion, PollResponse.statusCode]

/-- C10: when a module's static directory does not exist, Part.refresh
succeeds and resets the part's tree to a fresh empty directory node whose
hash is the zero digest, so the part contributes a constant zero to the
uber hash regardless of the surrounding parts. -/
theorem c10_absent_static_dir_gives_zero_hash (p : BuildPart) (force : Bool)
    (srcPath dstPath : String) (extras : List String) (lbh : Digest)
    (pre post : List BuildPart) (mn : BuildPart) (dst : Option Node) :
    (p.refresh force none).1 = true ∧
    (p.refresh force none).2.src = some freshDirNode ∧
    (p.refresh force none).2.srcNode.hash = Digest.zero ∧
    Project.srcHash ⟨srcPath, mn, pre ++ (p.refresh force none).2 :: post, dst, dstPath, extras, lbh⟩
      = Digest.ofDigests ((pre.map fun q => q.srcNode.hash) ++
          Digest.zero :: ((post.map fun q => q.srcNode.hash) ++ [mn.srcNode.hash])) := by
  obtain ⟨mod, src⟩ := p
  have hr : BuildPart.refresh ⟨mod, src⟩ force none = (true, ⟨mod, some freshDirNode⟩) := by
    cases src <;> simp [BuildPart.refresh]
  rw [hr]
  refine ⟨rfl, rfl, rfl, ?_⟩
  simp [Project.srcHash, BuildPart.srcNode, freshDirNode, Node.hash]

/-- Witness for C10: instantiated at a concrete part with no static
directory. -/
theorem c10_witness :
    ((⟨oneFileModule, none⟩ : BuildPart).refresh false none).2.src = some freshDirNode :=
  (c10_absent_static_dir_gives_zero_hash ⟨oneFileModule, none⟩ false "" "" [] Digest.zero
    [] [] ⟨oneFileModule, none⟩ none).2.1

theorem Node.withChildren_hash (n : Node) (cs : List Node) :
    (n.withChildren cs).hash = n.hash := by
  cases n; rfl

theorem Node.updateChild_hash (n c : Node) : (n.updateChild c).hash = n.hash :=
  Node.withChildren_hash ..

theorem Node.remove_hash (n : Node) (s : String) : (n.remove s).hash = n.hash := by
  unfold Node.remove
  rcases h : n.children.get? (searchNodeIdx s n.children) with _ | c <;> simp only [h]
  split
  · exact Node.withChildren_hash ..
  · rfl

theorem Node.add_hash (n c : Node) : (n.add c).hash = n.hash :=
  Node.withChildren_hash ..

theorem readDirGo_error_hash (es : List FsEntry) (parent : Node) (cur : List String)
    (digs : List Digest) :
    (readDirGo es parent cur digs).1 = false →
    (readDirGo es parent cur digs).2.hash = parent.hash := by
  refine readDirGo.induct
    (fun e node => (readDirStep e node).1 = false → (readDirStep e node).2.hash = node.hash)
    (fun es parent cur digs =>
      (readDirGo es parent cur digs).1 = false →
      (readDirGo es parent cur digs).2.hash = parent.hash)
    ?_ ?_ ?_ ?_ ?_ ?_ ?_ ?_ es parent cur digs
  · intro node n perm mt content h
    simp [readDirStep] at h
  · intro node n perm mt _
    rfl
  · intro node n perm mt entries ih h
    exact ih h
  · intro parent cur digs h
    simp [readDirGo] at h
  · intro parent cur digs e rest hign ih h
    rw [readDirGo] at h ⊢
    simp only [hign, if_true] at h ⊢
    exact ih h
  · intro parent cur digs e rest hign cur2 found hshort ih h
    simp only [Bool.not_eq_true] at hign
    rw [readDirGo] at h ⊢
    simp only [hign, hshort, Bool.false_eq_true, if_false, if_true] at h ⊢
    exact ih h
  · intro parent cur digs e rest hign found hshort node0 node2 hstep ih h
    simp only [Bool.not_eq_true] at hign hshort
    rw [readDirGo]
    simp only [hign, hshort, Bool.false_eq_true, if_false, hstep]
    split
    · exact Node.updateChild_hash ..
    · rfl
  · intro parent cur digs e rest hign cur2 found hshort node0 node2 hstep ih1 ih2 h
    simp only [Bool.not_eq_true] at hign hshort
    rw [readDirGo] at h ⊢
    simp only [hign, hshort, Bool.false_eq_true, if_false, hstep] at h ⊢
    rw [ih2 h]
    exact Node.add_hash ..

/-- C4 amended: any I/O error during traversal fails the whole refresh,
and the failing tree's root hash is left exactly as it was before the
call (it is only recomputed after a complete successful pass).  The
claim's stronger statement — that the whole tree looks untouched to the
caller — fails, because children processed before the error remain
updated (see the counterexample). -/
theorem c4_io_error_leaves_root_hash_unchanged (es : List FsEntry) (parent : Node)
    (h : (readDir es parent).1 = false) :
    (readDir es parent).2.hash = parent.hash :=
  readDirGo_error_hash es parent [] [] h

/-- Witness for the amended C4 at a concrete failing listing. -/
theorem c4_witness :
    (readDir [.badFile "z" 6 1] freshDirNode).1 = false ∧
    (readDir [.badFile "z" 6 1] freshDirNode).2.hash = freshDirNode.hash :=
  ⟨by decide, c4_io_error_leaves_root_hash_unchanged _ _ (by decide)⟩

/-- templateLoop never overwrites an already-present compile error: the
wasm failure wins over any later template failure (first failure wins). -/
theorem templateLoop_keeps_error (render : List Nat → Option (List Nat))
    (patterns : List String) (files : List String) (dk : Disk) (e : String)
    (done : List String) :
    (templateLoop render patterns files dk (some e) done).compileError = some e := by
  induction files generalizing dk done with
  | nil => rfl
  | cons f fs ih =>
    rw [templateLoop]
    split
    · rcases h : applyTemplateD render dk f with e2 | dk2
      · simp only [h]
        exact ih dk (done ++ [f])
      · simp only [h]
        exact ih dk2 (done ++ [f])
    · exact ih dk done

/-- C7: a BuildWasm failure does not abort the pipeline.  Under the
preconditions that module loading and refresh succeed, the uber hash
differs from LastBuildHash (so no early return) and go-generate is off,
a failing BuildWasm leads to: no fatal error, the template stage still
runs, the recorded CompileError is exactly the wasm error, and both the
stored LastBuildHash and the returned hash are the zero value, so the
next change retries a full build. -/
theorem c7_buildwasm_failure_not_fatal (p : Project) (opts : BuildOptions) (w : World)
    (e : String)
    (hgen : opts.goGenerate = false)
    (hload : (p.loadMods w).1 = true)
    (hrefresh : ((p.loadMods w).2.refresh opts.force w).1 = true)
    (hchanged : ((p.loadMods w).2.refresh opts.force w).2.srcHash ≠
      ((p.loadMods w).2.refresh opts.force w).2.lastBuildHash)
    (hwasm : w.buildWasmErr = some e) :
    (p.build opts w).fatal = false ∧
    (p.build opts w).templateStageReached = true ∧
    (p.build opts w).buildWasmInvoked = true ∧
    (p.build opts w).compileError = some e ∧
    (p.build opts w).proj.lastBuildHash = Digest.zero ∧
    (p.build opts w).ret = Digest.zero := by
  unfold Project.build
  rcases hl : p.loadMods w with ⟨ok1, p1⟩
  rw [hl] at hload hrefresh hchanged
  simp only at hload
  subst hload
  simp only at hrefresh hchanged
  rcases hr : p1.refresh opts.force w with ⟨ok2, p2⟩
  rw [hr] at hrefresh hchanged
  simp only at hrefresh hchanged
  subst hrefresh
  simp only [hr]
  rw [if_neg hchanged, hgen]
  simp only [if_false, Bool.false_eq_true, hwasm]
  have hce := templateLoop_keeps_error w.render opts.templatePatterns
    (listAllFiles (projectSync (p2.mods.map fun q => (pjoin q.mod.dir "static", q.srcNode))
      p2.dstPath (p2.dst.getD freshDirNode) p2.extraDstFiles w.dstDisk w.fetch).disk)
    (projectSync (p2.mods.map fun q => (pjoin q.mod.dir "static", q.srcNode))
      p2.dstPath (p2.dst.getD freshDirNode) p2.extraDstFiles w.dstDisk w.fetch).disk e []
  simp only [hce, Option.isSome_some, if_true]
  exact ⟨trivial, trivial, trivial, trivial, trivial, trivial⟩

/-- Witness for C7: the one-file project with a failing wasm compile. -/
theorem c7_witness :
    (oneFileProject.build plainOpts { oneFileWorld with buildWasmErr := some "boom" }).compileError
        = some "boom" ∧
    (oneFileProject.build plainOpts
        { oneFileWorld with buildWasmErr := some "boom" }).proj.lastBuildHash = Digest.zero :=
  ⟨(c7_buildwasm_failure_not_fatal oneFileProject plainOpts
      { oneFileWorld with buildWasmErr := some "boom" } "boom" rfl (by decide) (by decide)
      (by decide) rfl).2.2.2.1,
   (c7_buildwasm_failure_not_fatal oneFileProject plainOpts
      { oneFileWorld with buildWasmErr := some "boom" } "boom" rfl (by decide) (by decide)
      (by decide) rfl).2.2.2.2.1⟩

theorem isPrefixOf_length_le {α : Type} [BEq α] (l1 l2 : List α)
    (h : l1.isPrefixOf l2 = true) : l1.length ≤ l2.length := by
  induction l1 generalizing l2 with
  | nil => simp
  | cons a as ih =>
    cases l2 with
    | nil => simp [List.isPrefixOf] at h
    | cons b bs =>
      simp only [List.isPrefixOf, Bool.and_eq_true] at h
      simpa using ih bs h.2

theorem pathCovers_self (q : String) : pathCovers q q = true := by
  simp [pathCovers]

theorem diskGet_cons_ne (pc : String × List Nat) (rest : Disk) (q : String)
    (h : ¬ pc.1 = q) : diskGet (pc :: rest) q = diskGet rest q := by
  unfold diskGet
  rw [List.find?_cons_of_neg]
  simpa using h

theorem diskGet_cons_eq (pc : String × List Nat) (rest : Disk) (q : String)
    (h : pc.1 = q) : diskGet (pc :: rest) q = some pc.2 := by
  unfold diskGet
  rw [List.find?_cons_of_pos]
  simpa using h

theorem diskRemoveAll_cons (pc : String × List Nat) (rest : Disk) (p : String) :
    diskRemoveAll (pc :: rest) p =
      if pathCovers p pc.1 then diskRemoveAll rest p else pc :: diskRemoveAll rest p := by
  unfold diskRemoveAll
  rw [List.filter_cons]
  cases hc : pathCovers p pc.1 <;> simp [hc]

theorem diskGet_removeAll_covered (dk : Disk) (p q : String)
    (h : pathCovers p q = true) : diskGet (diskRemoveAll dk p) q = none := by
  induction dk with
  | nil => rfl
  | cons pc rest ih =>
    rw [diskRemoveAll_cons]
    by_cases hq : pc.1 = q
    · rw [if_pos (hq ▸ h)]
      exact ih
    · split
      · exact ih
      · rw [diskGet_cons_ne pc _ q hq]
        exact ih

theorem diskGet_removeAll_not_covered (dk : Disk) (p q : String)
    (h : pathCovers p q = false) : diskGet (diskRemoveAll dk p) q = diskGet dk q := by
  induction dk with
  | nil => rfl
  | cons pc rest ih =>
    rw [diskRemoveAll_cons]
    by_cases hq : pc.1 = q
    · rw [if_neg (by rw [hq, h]; exact Bool.false_ne_true)]
      rw [diskGet_cons_eq pc _ q hq, diskGet_cons_eq pc rest q hq]
    · split
      · rw [ih, diskGet_cons_ne pc rest q hq]
      · rw [diskGet_cons_ne pc _ q hq, ih, diskGet_cons_ne pc rest q hq]

theorem diskGet_write_self (dk : Disk) (q : String) (c : List Nat) :
    diskGet (diskWrite dk q c) q = some c := by
  unfold diskWrite
  split
  case isTrue hany =>
    induction dk with
    | nil => simp at hany
    | cons pc rest ih =>
      rw [List.map_cons]
      by_cases hq : pc.1 = q
      · rw [if_pos hq]
        exact diskGet_cons_eq (pc.1, c) _ q hq
      · rw [if_neg hq]
        rw [diskGet_cons_ne pc _ q hq]
        simp only [List.any_cons, Bool.or_eq_true_iff] at hany
        rcases hany with h1 | h2
        · exact absurd (of_decide_eq_true h1) hq
        · exact ih h2
  case isFalse hany =>
    induction dk with
    | nil => exact diskGet_cons_eq (q, c) [] q rfl
    | cons pc rest ih =>
      simp only [List.any_cons, Bool.or_eq_true_iff, not_or] at hany
      have hq : ¬ pc.1 = q := fun hh => hany.1 (by simp [hh])
      rw [List.cons_append, diskGet_cons_ne pc _ q hq]
      exact ih (by simpa using hany.2)

theorem length_takeWhile_le {α : Type} (p : α → Bool) (l : List α) :
    (l.takeWhile p).length ≤ l.length := by
  induction l with
  | nil => simp
  | cons a l ih =>
    rw [List.takeWhile_cons]
    split
    · simpa using ih
    · simp

theorem extOf_length_le (s : String) : (extOf s).data.length ≤ s.data.length := by
  simp only [extOf]
  split
  case h_1 x c rest heq =>
    split
    · have h1 : (s.data.reverse.takeWhile fun c => !(c = '.' || c = '/')).length < s.data.reverse.length := by
        by_contra hge
        push_neg at hge
        have : s.data.reverse.drop (s.data.reverse.takeWhile fun c => !(c = '.' || c = '/')).length = [] :=
          List.drop_eq_nil_of_le hge
        rw [this] at heq
        exact List.noConfusion heq
      simp only [String.data]
      simp only [List.length_cons, List.length_reverse] at *
      omega
    · simp
  case h_2 => simp

theorem hasGoExtPfx_shape (e : String) (h : hasGoExtPfx e = true) :
    ∃ r, e.data = '.' :: 'g' :: 'o' :: r := by
  unfold hasGoExtPfx at h
  split at h
  · next r heq => exact ⟨r, heq⟩
  · exact absurd h (by simp)

theorem stripGoDst_length (s : String) (h : hasGoExtPfx (extOf s) = true) :
    (stripGoDst s).data.length + 2 = s.data.length := by
  obtain ⟨r, hr⟩ := hasGoExtPfx_shape _ h
  have hle := extOf_length_le s
  simp only [stripGoDst]
  rw [if_pos h]
  simp only [String.data, List.length_append, List.length_take, List.length_cons,
    List.length_drop]
  rw [hr] at hle ⊢
  simp only [List.length_cons] at hle ⊢
  omega

theorem stripGoDst_ne (s : String) (h : hasGoExtPfx (extOf s) = true) :
    stripGoDst s ≠ s := by
  intro heq
  have hl := stripGoDst_length s h
  rw [heq] at hl
  omega

theorem stripGoDst_not_covered (s : String) (h : hasGoExtPfx (extOf s) = true) :
    pathCovers s (stripGoDst s) = false := by
  have hl := stripGoDst_length s h
  unfold pathCovers
  have h1 : decide (s = stripGoDst s) = false := by
    apply decide_eq_false
    intro heq
    rw [← heq] at hl
    omega
  have h2 : decide (s = "") = false := by
    apply decide_eq_false
    intro heq
    rw [heq] at hl
    simp at hl
  have h3 : (s.data ++ ['/']).isPrefixOf (stripGoDst s).data = false := by
    by_contra hb
    rw [Bool.not_eq_false] at hb
    have := isPrefixOf_length_le _ _ hb
    simp only [List.length_append, List.length_cons, List.length_nil] at this
    omega
  rw [h1, h2, h3]
  rfl

/-- C8 amended: for every file the template stage processes, the output
goes to the name with go stripped from the extension and the original is
deleted exactly when the extension starts with the case-sensitive prefix
".go"; otherwise — including files admitted by the case-insensitive
pattern match whose extension does not literally start with ".go", such
as .GOHTML — the input is overwritten in place and kept. -/
theorem c8_go_ext_stripped_only_case_sensitively (render : List Nat → Option (List Nat))
    (dk : Disk) (patterns : List String) (fname : String) (content out : List Nat)
    (hm : templateMatches patterns fname = true)
    (hread : diskGet dk fname = some content)
    (hrender : render content = some out) :
    (hasGoExtPfx (extOf fname) = true →
      applyTemplateD render dk fname
        = .ok (diskRemoveAll (diskWrite dk (stripGoDst fname) out) fname) ∧
      stripGoDst fname ≠ fname ∧
      diskGet (diskRemoveAll (diskWrite dk (stripGoDst fname) out) fname) (stripGoDst fname)
        = some out ∧
      diskGet (diskRemoveAll (diskWrite dk (stripGoDst fname) out) fname) fname = none) ∧
    (hasGoExtPfx (extOf fname) = false →
      stripGoDst fname = fname ∧
      applyTemplateD render dk fname = .ok (diskWrite dk fname out) ∧
      diskGet (diskWrite dk fname out) fname = some out) := by
  constructor
  · intro hgo
    have hne := stripGoDst_ne fname hgo
    have happ : applyTemplateD render dk fname
        = .ok (diskRemoveAll (diskWrite dk (stripGoDst fname) out) fname) := by
      unfold applyTemplateD
      rw [hread]
      dsimp only
      rw [hrender]
      dsimp only
      rw [if_pos hne]
    refine ⟨happ, hne, ?_, ?_⟩
    · rw [diskGet_removeAll_not_covered _ _ _ (stripGoDst_not_covered fname hgo)]
      exact diskGet_write_self ..
    · exact diskGet_removeAll_covered _ _ _ (pathCovers_self fname)
  · intro hgo
    have hstrip : stripGoDst fname = fname := by
      simp only [stripGoDst]
      rw [hgo]
      simp
    have happ : applyTemplateD render dk fname = .ok (diskWrite dk fname out) := by
      unfold applyTemplateD
      rw [hread]
      dsimp only
      rw [hrender]
      dsimp only
      rw [hstrip]
      simp
    exact ⟨hstrip, happ, diskGet_write_self ..⟩

/-- C8 counterexample: index.GOHTML matches the default pattern .gohtml
case-insensitively and is processed, but the case-sensitive HasPrefix
test fails, so the output overwrites the input in place and no
index.HTML is produced — against the claim's strip-and-delete for the
whole go-extension family. -/
theorem c8_uppercase_goext_processed_but_not_stripped :
    templateMatches defaultPatterns "index.GOHTML" = true ∧
    stripGoDst "index.GOHTML" = "index.GOHTML" ∧
    applyTemplateD (fun c => some c) [("index.GOHTML", [3])] "index.GOHTML"
      = .ok [("index.GOHTML", [3])] ∧
    "index.GOHTML" ≠ "index.HTML" :=
  ⟨by decide, by decide, rfl, by decide⟩

/-- Witness for the amended C8 at a lowercase .gohtml input. -/
theorem c8_witness :
    applyTemplateD (fun c => some c) [("index.gohtml", [3])] "index.gohtml"
      = .ok (diskRemoveAll
          (diskWrite [("index.gohtml", [3])] (stripGoDst "index.gohtml") [3]) "index.gohtml") ∧
    stripGoDst "index.gohtml" ≠ "index.gohtml" :=
  ⟨((c8_go_ext_stripped_only_case_sensitively (fun c => some c) [("index.gohtml", [3])]
      defaultPatterns "index.gohtml" [3] [3] (by decide) (by decide) rfl).1 (by decide)).1,
   ((c8_go_ext_stripped_only_case_sensitively (fun c => some c) [("index.gohtml", [3])]
      defaultPatterns "index.gohtml" [3] [3] (by decide) (by decide) rfl).1 (by decide)).2.1⟩

/-- nameLe with an empty left argument is always true (empty string is
the least). -/
theorem nameLe_empty_left (s : String) : nameLe "" s = true := rfl

/-- C5: when the main module (parts index 0) and a dependency module both
ship a static file at the same relative path p, the overlay assembled by
sync holds the main module's entry for p (parts are merged from last to
first with PutTop, whose src argument wins, so the main module merged
last ends on top), and after the copy pass the target disk holds the main
module's bytes for p.  Stated for a fresh (empty) target directory and
arbitrary path, contents and module directories. -/
theorem c5_main_module_wins (p : String) (hp : fileIgnored p = false)
    (A B : List Nat) (mainDir depDir dstPath : String) (extras : List String)
    (fetch : String → String → List Nat)
    (hfetch : fetch (pjoin mainDir "static") p = B) :
    (projectSync
        [(pjoin mainDir "static", .mk (.ofDigests [.ofBytes B]) "" ⟨true, 0⟩ 0
            [.mk (.ofBytes B) p ⟨false, 6⟩ 1 []]),
         (pjoin depDir "static", .mk (.ofDigests [.ofBytes A]) "" ⟨true, 0⟩ 0
            [.mk (.ofBytes A) p ⟨false, 6⟩ 1 []])]
        dstPath (.mk (.ofDigests []) "" ⟨true, 0⟩ 0 []) extras [] fetch).srcTree
      = [⟨pjoin mainDir "static", "",
            .mk (.ofDigests [.ofBytes B]) "" ⟨true, 0⟩ 0 [.mk (.ofBytes B) p ⟨false, 6⟩ 1 []]⟩,
         ⟨pjoin mainDir "static", p, .mk (.ofBytes B) p ⟨false, 6⟩ 1 []⟩] ∧
    diskGet (projectSync
        [(pjoin mainDir "static", .mk (.ofDigests [.ofBytes B]) "" ⟨true, 0⟩ 0
            [.mk (.ofBytes B) p ⟨false, 6⟩ 1 []]),
         (pjoin depDir "static", .mk (.ofDigests [.ofBytes A]) "" ⟨true, 0⟩ 0
            [.mk (.ofBytes A) p ⟨false, 6⟩ 1 []])]
        dstPath (.mk (.ofDigests []) "" ⟨true, 0⟩ 0 []) extras [] fetch).disk p
      = some B := by
  obtain ⟨c, cs, hdata⟩ : ∃ c cs, p.data = c :: cs := by
    rcases hd : p.data with _ | ⟨c, cs⟩
    · exfalso
      unfold fileIgnored at hp
      rw [hd] at hp
      simp at hp
    · exact ⟨c, cs, rfl⟩
  have hne : ¬ (("" : String) = p) := by
    intro h
    have : ("" : String).data = p.data := by rw [h]
    rw [hdata] at this
    exact List.noConfusion this
  have hne2 : ¬ (p = ("" : String)) := fun h => hne h.symm
  have hle1 : nameLe p "" = false := by
    unfold nameLe byteLe
    rw [hdata]
  have hlt1 : nameLt p "" = false := by
    unfold nameLt
    rw [nameLe_empty_left]
    rfl
  have hsrc : srcOverlay
      [(pjoin mainDir "static", .mk (.ofDigests [.ofBytes B]) "" ⟨true, 0⟩ 0
          [.mk (.ofBytes B) p ⟨false, 6⟩ 1 []]),
       (pjoin depDir "static", .mk (.ofDigests [.ofBytes A]) "" ⟨true, 0⟩ 0
          [.mk (.ofBytes A) p ⟨false, 6⟩ 1 []])]
      = [⟨pjoin mainDir "static", "",
            .mk (.ofDigests [.ofBytes B]) "" ⟨true, 0⟩ 0 [.mk (.ofBytes B) p ⟨false, 6⟩ 1 []]⟩,
         ⟨pjoin mainDir "static", p, .mk (.ofBytes B) p ⟨false, 6⟩ 1 []⟩] := by
    unfold srcOverlay
    simp only [List.reverse_cons, List.reverse_nil, List.nil_append, List.cons_append,
      List.foldl_cons, List.foldl_nil]
    unfold PutTop Node.flatten flattenOne flattenMany flattenOne flattenMany
    simp [mapPut, hne, hne2, sortFiles, insertSortedFile, hlt1, pjoin]
  have hd : Digest.ofDigests [Digest.ofBytes B] ≠ Digest.ofDigests [] := by
    simp [Digest.ofDigests, Digest.ofBytes]
  refine ⟨by dsimp only [projectSync]; exact hsrc, ?_⟩
  dsimp only [projectSync]
  rw [hsrc]
  simp [pjoin] at hfetch
  simp [syncCopyPass, syncPrunePass, Node.flatten, flattenOne, flattenMany, pjoin,
    FindFile, searchFileIdx, nameLe_empty_left, hle1, hashDiffers, hd,
    Node.hash, Node.mode, Node.name, Mode.isDir, Mode.isRegular, Node.children,
    diskWrite, diskGet, hfetch, hne, hne2]

/-- Witness for C5 at a concrete conflicting stylesheet. -/
theorem c5_witness :
    diskGet (projectSync
        [("/m/static", .mk (.ofDigests [.ofBytes [2]]) "" ⟨true, 0⟩ 0
            [.mk (.ofBytes [2]) "style.css" ⟨false, 6⟩ 1 []]),
         ("/d/static", .mk (.ofDigests [.ofBytes [1]]) "" ⟨true, 0⟩ 0
            [.mk (.ofBytes [1]) "style.css" ⟨false, 6⟩ 1 []])]
        "/dst" (.mk (.ofDigests []) "" ⟨true, 0⟩ 0 []) [] [] (fun _ _ => [2])).disk "style.css"
      = some [2] := by
  have h := (c5_main_module_wins "style.css" (by decide) [1] [2] "/m" "/d" "/dst" []
    (fun _ _ => [2]) rfl).2
  simpa [pjoin] using h

/-- C6 counterexample: the target directory holds a dot-prefixed file
.secret (plus a stale file x); the source overlay ships only y.  The hash
tree ignores dot-prefixed names entirely, so after the sync's prune pass
the stale x is gone but .secret remains on disk although it is neither in
the overlay nor in ExtraDstFiles — against the claim that no such file
remains under DstPath. -/
theorem c6_dotfile_escapes_prune :
    (readDir [.file ".secret" 6 1 [5], .file "x" 6 1 [1]] freshDirNode).1 = true ∧
    diskGet (projectSync
        [("/m/static", (readDir [.file "y" 6 1 [2]] freshDirNode).2)]
        "/dst" (readDir [.file ".secret" 6 1 [5], .file "x" 6 1 [1]] freshDirNode).2
        [] [(".secret", [5]), ("x", [1])] (fun _ _ => [2])).disk ".secret" = some [5] ∧
    (∀ f ∈ (projectSync
        [("/m/static", (readDir [.file "y" 6 1 [2]] freshDirNode).2)]
        "/dst" (readDir [.file ".secret" 6 1 [5], .file "x" 6 1 [1]] freshDirNode).2
        [] [(".secret", [5]), ("x", [1])] (fun _ _ => [2])).srcTree,
      f.filename ≠ ".secret") ∧
    diskGet (projectSync
        [("/m/static", (readDir [.file "y" 6 1 [2]] freshDirNode).2)]
        "/dst" (readDir [.file ".secret" 6 1 [5], .file "x" 6 1 [1]] freshDirNode).2
        [] [(".secret", [5]), ("x", [1])] (fun _ _ => [2])).disk "x" = none := by
  refine ⟨rfl, rfl, ?_, rfl⟩
  intro f hf
  fin_cases hf <;> decide

theorem Node.withChildren_name (n : Node) (cs : List Node) :
    (n.withChildren cs).name = n.name := by
  cases n; rfl

theorem Node.withHash_name (n : Node) (h : Digest) : (n.withHash h).name = n.name := by
  cases n; rfl

theorem Node.withHash_children (n : Node) (h : Digest) :
    (n.withHash h).children = n.children := by
  cases n; rfl

theorem Node.remove_name (n : Node) (s : String) : (n.remove s).name = n.name := by
  unfold Node.remove
  rcases h : n.children.get? (searchNodeIdx s n.children) with _ | c <;> simp only [h]
  split
  · exact Node.withChildren_name ..
  · rfl

theorem Node.add_name (n c : Node) : (n.add c).name = n.name :=
  Node.withChildren_name ..

theorem Node.updateChild_name (n c : Node) : (n.updateChild c).name = n.name :=
  Node.withChildren_name ..

theorem mem_insertSortedNode (a c : Node) (l : List Node) :
    a ∈ insertSortedNode c l ↔ a = c ∨ a ∈ l := by
  induction l with
  | nil => simp [insertSortedNode]
  | cons d ds ih =>
    unfold insertSortedNode
    split <;> simp only [List.mem_cons, ih] <;> tauto

theorem mem_sortNodes (a : Node) (l : List Node) : a ∈ sortNodes l ↔ a ∈ l := by
  induction l with
  | nil => simp [sortNodes]
  | cons c cs ih =>
    unfold sortNodes
    rw [mem_insertSortedNode]
    simp [ih]

theorem mem_eraseIdx_of_ne (a : Node) (l : List Node) (i : Nat) (d : Node)
    (hget : l.get? i = some d) (hne : a ≠ d) (ha : a ∈ l) : a ∈ l.eraseIdx i := by
  induction l generalizing i with
  | nil => cases ha
  | cons b bs ih =>
    cases i with
    | zero =>
      simp only [List.get?] at hget
      injection hget with hbd
      subst hbd
      rcases List.mem_cons.mp ha with h1 | h2
      · exact absurd h1 hne
      · simpa [List.eraseIdx] using h2
    | succ j =>
      simp only [List.get?] at hget
      rcases List.mem_cons.mp ha with h1 | h2
      · simp [List.eraseIdx, h1]
      · simp only [List.eraseIdx, List.mem_cons]
        exact Or.inr (ih j hget h2)

theorem Node.withChildren_children (n : Node) (cs : List Node) :
    (n.withChildren cs).children = cs := by
  cases n; rfl

theorem Node.find_spec (n : Node) (s : String) (c : Node) (h : n.find s = some c) :
    c ∈ n.children ∧ c.name = s := by
  simp only [Node.find] at h
  rcases hg : n.children.get? (searchNodeIdx s n.children) with _ | d
  · rw [hg] at h
    exact absurd h (by simp)
  · simp only [hg] at h
    split at h
    · next hds =>
      injection h with hcd
      subst hcd
      exact ⟨List.get?_mem hg, hds⟩
    · exact absurd h (by simp)

theorem Node.remove_mem (n : Node) (s : String) (c : Node) (hc : c ∈ n.children)
    (hne : c.name ≠ s) : c ∈ (n.remove s).children := by
  simp only [Node.remove]
  rcases hg : n.children.get? (searchNodeIdx s n.children) with _ | d
  · simp only [hg]
    exact hc
  · simp only [hg]
    split
    · next hd =>
      rw [Node.withChildren_children]
      exact mem_eraseIdx_of_ne c _ _ d hg (fun he => hne (he ▸ hd)) hc
    · exact hc

theorem Node.add_mem_of_ne (n : Node) (child c : Node) (hc : c ∈ n.children)
    (hne : c.name ≠ child.name) : c ∈ (n.add child).children := by
  unfold Node.add
  rw [Node.withChildren_children, mem_sortNodes, List.mem_append]
  exact Or.inl (Node.remove_mem n child.name c hc hne)

theorem Node.add_self_mem (n : Node) (child : Node) : child ∈ (n.add child).children := by
  unfold Node.add
  rw [Node.withChildren_children, mem_sortNodes, List.mem_append]
  exact Or.inr (by simp)

theorem purge_keeps (snapshot : List Node) (cur : List String) (p : Node) (c : Node)
    (hc : c ∈ p.children) (hcur : cur.contains c.name = true) :
    c ∈ (snapshot.foldl
      (fun p c2 => if cur.contains c2.name then p else p.remove c2.name) p).children := by
  induction snapshot generalizing p with
  | nil => exact hc
  | cons d ds ih =>
    rw [List.foldl_cons]
    split
    · exact ih p hc
    · next hd =>
      refine ih _ (Node.remove_mem p d.name c hc ?_)
      intro he
      rw [← he] at hd
      exact hd hcur

theorem purge_name (snapshot : List Node) (cur : List String) (p : Node) :
    (snapshot.foldl
      (fun p c2 => if cur.contains c2.name then p else p.remove c2.name) p).name = p.name := by
  induction snapshot generalizing p with
  | nil => rfl
  | cons d ds ih =>
    rw [List.foldl_cons]
    split
    · exact ih p
    · rw [ih _, Node.remove_name]

theorem readDirGo_name (es : List FsEntry) (parent : Node) (cur : List String)
    (digs : List Digest) :
    (readDirGo es parent cur digs).2.name = parent.name := by
  refine readDirGo.induct
    (fun e node => (readDirStep e node).2.name = node.name)
    (fun es parent cur digs => (readDirGo es parent cur digs).2.name = parent.name)
    ?_ ?_ ?_ ?_ ?_ ?_ ?_ ?_ es parent cur digs
  · intro node n perm mt content
    exact Node.withHash_name ..
  · intro node n perm mt
    rfl
  · intro node n perm mt entries ih
    exact ih
  · intro parent cur digs
    rw [readDirGo]
    rw [Node.withHash_name]
    exact purge_name ..
  · intro parent cur digs e rest hign ih
    rw [readDirGo]
    simp only [hign, if_true]
    exact ih
  · intro parent cur digs e rest hign cur2 found hshort ih
    simp only [Bool.not_eq_true] at hign
    rw [readDirGo]
    simp only [hign, hshort, Bool.false_eq_true, if_false, if_true]
    exact ih
  · intro parent cur digs e rest hign found hshort node0 node2 hstep ih
    simp only [Bool.not_eq_true] at hign hshort
    rw [readDirGo]
    simp only [hign, hshort, Bool.false_eq_true, if_false, hstep]
    split
    · exact Node.updateChild_name ..
    · rfl
  · intro parent cur digs e rest hign cur2 found hshort node0 node2 hstep ih1 ih2
    simp only [Bool.not_eq_true] at hign hshort
    rw [readDirGo]
    simp only [hign, hshort, Bool.false_eq_true, if_false, hstep]
    rw [ih2, Node.add_name]

theorem flattenOne_eq (n : Node) (pfx root : String) :
    flattenOne n pfx root =
      ⟨pfx, pjoin root n.name, n⟩ :: flattenMany n.children pfx (pjoin root n.name) := by
  cases n; rfl

theorem mem_flattenMany_of_mem (cs : List Node) (c : Node) (pfx root : String)
    (hc : c ∈ cs) (f : File) (hf : f ∈ flattenOne c pfx root) :
    f ∈ flattenMany cs pfx root := by
  induction cs with
  | nil => cases hc
  | cons d ds ih =>
    rw [flattenMany, List.mem_append]
    rcases List.mem_cons.mp hc with h1 | h2
    · exact Or.inl (h1 ▸ hf)
    · exact Or.inr (ih h2)

theorem flattenOne_pfx (n : Node) (pfx root : String) :
    ∀ f ∈ flattenOne n pfx root, f.pfx = pfx := by
  refine flattenOne.induct (fun n pfx root => ∀ f ∈ flattenOne n pfx root, f.pfx = pfx)
    (fun cs pfx root => ∀ f ∈ flattenMany cs pfx root, f.pfx = pfx) ?_ ?_ ?_ n pfx root
  · intro pfx2 root2 hsh nm md mt cs ih f hf
    rw [flattenOne_eq] at hf
    rcases List.mem_cons.mp hf with h1 | h2
    · rw [h1]
    · exact ih f h2
  · intro pfx root f hf
    rw [flattenMany] at hf
    cases hf
  · intro c rest pfx root ih1 ih2 f hf
    rw [flattenMany, List.mem_append] at hf
    rcases hf with h1 | h2
    · exact ih1 f h1
    · exact ih2 f h2

theorem hasPath_mem_flatten (segs : List String) (n : Node) (pfx root : String)
    (h : n.hasPath segs) :
    ∃ f ∈ flattenOne n pfx root, f.filename = segs.foldl pjoin (pjoin root n.name) := by
  induction segs generalizing n root with
  | nil =>
    exact ⟨⟨pfx, pjoin root n.name, n⟩, by rw [flattenOne_eq]; exact List.mem_cons_self .., rfl⟩
  | cons s rest ih =>
    obtain ⟨c, hcmem, hcname, hcpath⟩ := h
    obtain ⟨f, hfmem, hfname⟩ := ih c (pjoin root n.name) hcpath
    refine ⟨f, ?_, ?_⟩
    · rw [flattenOne_eq]
      exact List.mem_cons_of_mem _ (mem_flattenMany_of_mem n.children c pfx _ hcmem f hfmem)
    · rw [hfname, List.foldl_cons, hcname]

theorem contains_append_self (cur : List String) (x : String) :
    (cur ++ [x]).contains x = true := by
  simp

theorem contains_append_of (cur : List String) (x y : String)
    (h : cur.contains y = true) : (cur ++ [x]).contains y = true := by
  simp at h ⊢
  exact Or.inl h

theorem wfList_cons (e : FsEntry) (rest : List FsEntry) (h : wfList (e :: rest) = true) :
    wfEntry e = true ∧ (∀ e2 ∈ rest, e2.name ≠ e.name) ∧ wfList rest = true := by
  rw [wfList] at h
  simp only [Bool.and_eq_true, List.all_eq_true, decide_eq_true_eq] at h
  exact ⟨h.1.1, h.1.2, h.2⟩

theorem filesOfEntry_head (e : FsEntry) :
    ∀ qc ∈ filesOfEntry e, ∃ r, qc.1 = e.name :: r := by
  cases e with
  | file n p t c =>
    intro qc hqc
    rw [filesOfEntry] at hqc
    rcases List.mem_singleton.mp hqc with h
    rw [h]
    exact ⟨[], rfl⟩
  | badFile n p t =>
    intro qc hqc
    rw [filesOfEntry] at hqc
    rcases List.mem_singleton.mp hqc with h
    rw [h]
    exact ⟨[], rfl⟩
  | dir n p t es =>
    intro qc hqc
    rw [filesOfEntry] at hqc
    obtain ⟨qc2, hq2, hq⟩ := List.mem_map.mp hqc
    rw [← hq]
    exact ⟨qc2.1, rfl⟩

theorem shortcutHit_spec (found : Option Node) (m : Mode) (mt : Nat)
    (h : shortcutHit found m mt = true) :
    ∃ nd, found = some nd ∧ nd.mode.isRegular = true ∧ nd.mode = m ∧ nd.modTime = mt := by
  unfold shortcutHit at h
  rcases found with _ | nd
  · exact absurd h (by simp)
  · simp only [Bool.and_eq_true, decide_eq_true_eq] at h
    exact ⟨nd, rfl, h.1.1, h.1.2, h.2⟩

theorem freshOrCached_name (found : Option Node) (name : String) (m : Mode) (mt : Nat)
    (hf : ∀ x, found = some x → x.name = name) :
    (freshOrCached found name m mt).name = name := by
  rcases found with _ | nd
  · rfl
  · show (if nd.mode = m then nd else Node.mk Digest.zero name m mt []).name = name
    split
    · exact hf nd rfl
    · rfl

theorem readDirStep_name (e : FsEntry) (n : Node) : (readDirStep e n).2.name = n.name := by
  cases e with
  | file nm p t c => exact Node.withHash_name ..
  | badFile nm p t => rfl
  | dir nm p t es => exact readDirGo_name ..

theorem readDirGo_covers (es : List FsEntry) (parent : Node) (cur : List String)
    (digs : List Digest) :
    (readDirGo es parent cur digs).1 = true → wfList es = true →
    (∀ qc ∈ filesOfList es, (∀ s ∈ qc.1, fileIgnored s = false) →
        (readDirGo es parent cur digs).2.hasPath qc.1) ∧
    (∀ c ∈ parent.children, cur.contains c.name = true →
        (∀ e ∈ es, fileIgnored e.name = false → e.name ≠ c.name) →
        c ∈ (readDirGo es parent cur digs).2.children) := by
  refine readDirGo.induct
    (fun e node => ∀ nm pm mt entries, e = .dir nm pm mt entries →
      (readDirStep e node).1 = true → wfList entries = true →
      ∀ qc ∈ filesOfList entries, (∀ s ∈ qc.1, fileIgnored s = false) →
        (readDirStep e node).2.hasPath qc.1)
    (fun es parent cur digs =>
      (readDirGo es parent cur digs).1 = true → wfList es = true →
      (∀ qc ∈ filesOfList es, (∀ s ∈ qc.1, fileIgnored s = false) →
          (readDirGo es parent cur digs).2.hasPath qc.1) ∧
      (∀ c ∈ parent.children, cur.contains c.name = true →
          (∀ e ∈ es, fileIgnored e.name = false → e.name ≠ c.name) →
          c ∈ (readDirGo es parent cur digs).2.children))
    ?_ ?_ ?_ ?_ ?_ ?_ ?_ ?_ es parent cur digs
  · intro node n perm mt content nm pm mt2 entries heq
    simp at heq
  · intro node n perm mt nm pm mt2 entries heq
    simp at heq
  · intro node n perm mt entries ih nm pm mt2 entries2 heq hok hwf qc hqc hvis
    injection heq with h1 h2 h3 h4
    subst h4
    exact (ih hok hwf).1 qc hqc hvis
  · intro parent cur digs hok hwf
    constructor
    · intro qc hqc hvis
      rw [filesOfList] at hqc
      cases hqc
    · intro c hc hcur hcond
      rw [readDirGo, Node.withHash_children]
      exact purge_keeps parent.children cur parent c hc hcur
  · intro parent cur digs e rest hign ih hok hwf
    have hrw : readDirGo (e :: rest) parent cur digs = readDirGo rest parent cur digs := by
      rw [readDirGo]
      simp only [hign, if_true]
    rw [hrw] at hok ⊢
    obtain ⟨hwfe, hnames, hwfr⟩ := wfList_cons e rest hwf
    have ih2 := ih hok hwfr
    constructor
    · intro qc hqc hvis
      rw [filesOfList, List.mem_append] at hqc
      rcases hqc with hqe | hqr
      · obtain ⟨r, hqhead⟩ := filesOfEntry_head e qc hqe
        have := hvis e.name (by rw [hqhead]; exact List.mem_cons_self ..)
        rw [this] at hign
        cases hign
      · exact ih2.1 qc hqr hvis
    · intro c hc hcur hcond
      exact ih2.2 c hc hcur (fun e2 he2 hig => hcond e2 (List.mem_cons_of_mem _ he2) hig)
  · intro parent cur digs e rest hign cur2 found hshort ih hok hwf
    simp only [Bool.not_eq_true] at hign
    have hrw : readDirGo (e :: rest) parent cur digs
        = readDirGo rest parent (cur ++ [e.name]) digs := by
      rw [readDirGo]
      simp only [hign, hshort, Bool.false_eq_true, if_false, if_true]
    rw [hrw] at hok ⊢
    obtain ⟨hwfe, hnames, hwfr⟩ := wfList_cons e rest hwf
    have ih2 := ih hok hwfr
    obtain ⟨nd, hndfind, hndreg, hndmode, hndmt⟩ := shortcutHit_spec _ _ _ hshort
    obtain ⟨hndmem, hndname⟩ := Node.find_spec parent e.name nd hndfind
    have hndfinal : nd ∈ (readDirGo rest parent (cur ++ [e.name]) digs).2.children :=
      ih2.2 nd hndmem (by rw [hndname]; exact contains_append_self ..)
        (fun e2 he2 _ => by rw [hndname]; exact hnames e2 he2)
    constructor
    · intro qc hqc hvis
      rw [filesOfList, List.mem_append] at hqc
      rcases hqc with hqe | hqr
      · cases e with
        | file n p t c =>
          rw [filesOfEntry] at hqe
          rw [List.mem_singleton.mp hqe]
          exact ⟨nd, hndfinal, hndname, trivial⟩
        | badFile n p t =>
          rw [filesOfEntry] at hqe
          rw [List.mem_singleton.mp hqe]
          exact ⟨nd, hndfinal, hndname, trivial⟩
        | dir n p t entries =>
          rw [hndmode] at hndreg
          simp [FsEntry.mode, Mode.isRegular] at hndreg
      · exact ih2.1 qc hqr hvis
    · intro c hc hcur hcond
      exact ih2.2 c hc (contains_append_of _ _ _ hcur)
        (fun e2 he2 hig => hcond e2 (List.mem_cons_of_mem _ he2) hig)
  · intro parent cur digs e rest hign found hshort node0 node2 hstep ih1 hok hwf
    simp only [Bool.not_eq_true] at hign hshort
    have hrw : (readDirGo (e :: rest) parent cur digs).1 = false := by
      rw [readDirGo]
      simp only [hign, hshort, Bool.false_eq_true, if_false, hstep]
    rw [hrw] at hok
    cases hok
  · intro parent cur digs e rest hign cur2 found hshort node0 node2 hstep ih1 ih2 hok hwf
    simp only [Bool.not_eq_true] at hign hshort
    have hrw : readDirGo (e :: rest) parent cur digs
        = readDirGo rest (parent.add node2) (cur ++ [e.name]) (digs ++ [node2.hash]) := by
      rw [readDirGo]
      simp only [hign, hshort, Bool.false_eq_true, if_false, hstep]
    rw [hrw] at hok ⊢
    obtain ⟨hwfe, hnames, hwfr⟩ := wfList_cons e rest hwf
    have ih2x := ih2 hok hwfr
    have hnode0name : node0.name = e.name :=
      freshOrCached_name _ _ _ _ (fun x hx => (Node.find_spec parent e.name x hx).2)
    have hn2name : node2.name = e.name := by
      have hh := readDirStep_name e node0
      rw [hstep] at hh
      rw [hh]
      exact hnode0name
    have hmem : node2 ∈
        (readDirGo rest (parent.add node2) (cur ++ [e.name]) (digs ++ [node2.hash])).2.children :=
      ih2x.2 node2 (Node.add_self_mem ..)
        (by rw [hn2name]; exact contains_append_self ..)
        (fun e2 he2 _ => by rw [hn2name]; exact hnames e2 he2)
    constructor
    · intro qc hqc hvis
      rw [filesOfList, List.mem_append] at hqc
      rcases hqc with hqe | hqr
      · cases e with
        | file n p t c =>
          rw [filesOfEntry] at hqe
          rw [List.mem_singleton.mp hqe]
          exact ⟨node2, hmem, hn2name, trivial⟩
        | badFile n p t =>
          rw [readDirStep] at hstep
          injection hstep with hfalse
          cases hfalse
        | dir n p t entries =>
          rw [filesOfEntry] at hqe
          obtain ⟨qc2, hq2mem, hq2⟩ := List.mem_map.mp hqe
          rw [← hq2]
          have hinner : node2.hasPath qc2.1 := by
            have hstept : (readDirStep (FsEntry.dir n p t entries) node0).1 = true := by
              rw [hstep]
            have hwfent : wfList entries = true := by
              rw [wfEntry] at hwfe
              exact hwfe
            have hv2 : ∀ s ∈ qc2.1, fileIgnored s = false := by
              intro s hs
              refine hvis s ?_
              rw [← hq2]
              exact List.mem_cons_of_mem _ hs
            have hres := ih1 n p t entries rfl hstept hwfent qc2 hq2mem hv2
            rw [hstep] at hres
            exact hres
          exact ⟨node2, hmem, hn2name, hinner⟩
      · exact ih2x.1 qc hqr hvis
    · intro c hc hcur hcond
      have hcne : c.name ≠ node2.name := by
        rw [hn2name]
        exact fun hh => hcond e (List.mem_cons_self ..) hign hh.symm
      exact ih2x.2 c (Node.add_mem_of_ne parent node2 c hc hcne)
        (contains_append_of _ _ _ hcur)
        (fun e2 he2 hig => hcond e2 (List.mem_cons_of_mem _ he2) hig)

theorem FindFile_neg_of_not_mem (s : List File) (q : String)
    (h : ∀ f ∈ s, f.filename ≠ q) : FindFile s q = -1 := by
  simp only [FindFile]
  rcases hg : s.get? (searchFileIdx q s) with _ | f
  · simp only [hg]
  · simp only [hg]
    rw [if_neg (h f (List.get?_mem hg))]

theorem diskRemoveAll_none_mono (dk : Disk) (p q : String)
    (h : diskGet dk q = none) : diskGet (diskRemoveAll dk p) q = none := by
  cases hc : pathCovers p q with
  | true => exact diskGet_removeAll_covered dk p q hc
  | false => rw [diskGet_removeAll_not_covered dk p q hc]; exact h

theorem syncPrunePass_none_mono (srcTree dstTree : List File) (extras : List String)
    (dk : Disk) (q : String) (h : diskGet dk q = none) :
    diskGet (syncPrunePass srcTree dstTree extras dk) q = none := by
  unfold syncPrunePass
  induction dstTree generalizing dk with
  | nil => exact h
  | cons g gs ih =>
    rw [List.foldl_cons]
    split
    · exact ih _ (diskRemoveAll_none_mono dk g.filename q h)
    · exact ih _ h

theorem syncPrunePass_removes (srcTree dstTree : List File) (extras : List String)
    (dk : Disk) (g : File) (hg : g ∈ dstTree)
    (hsrc : FindFile srcTree g.filename = -1)
    (hex : ¬ extras.contains (pjoin g.pfx g.filename) = true) :
    diskGet (syncPrunePass srcTree dstTree extras dk) g.filename = none := by
  induction dstTree generalizing dk with
  | nil => cases hg
  | cons g2 gs ih =>
    unfold syncPrunePass
    rw [List.foldl_cons]
    rcases List.mem_cons.mp hg with h1 | h2
    · subst h1
      rw [if_pos ⟨hsrc, hex⟩]
      exact syncPrunePass_none_mono srcTree gs extras _ _
        (diskGet_removeAll_covered _ _ _ (pathCovers_self g.filename))
    · split
      · exact ih _ h2
      · exact ih _ h2

theorem syncCopyPass_copies_from_overlay (srcTree dstTree : List File)
    (st : Disk × List String) (fetch : String → String → List Nat) :
    ∀ path ∈ (srcTree.foldl
      (fun st f =>
        let idx := FindFile dstTree f.filename
        if idx = -1 ∨ hashDiffers dstTree idx f then
          if f.node.mode.isDir then st
          else (diskWrite st.1 f.filename (fetch f.pfx f.filename), st.2 ++ [f.filename])
        else st) st).2,
      path ∈ st.2 ∨ ∃ f ∈ srcTree, f.filename = path := by
  induction srcTree generalizing st with
  | nil =>
    intro path hp
    exact Or.inl hp
  | cons f fs ih =>
    intro path hp
    rw [List.foldl_cons] at hp
    rcases ih _ path hp with h1 | ⟨f2, hf2, hf2n⟩
    · dsimp only at h1
      split at h1
      · split at h1
        · exact Or.inl h1
        · rcases List.mem_append.mp h1 with ha | hb
          · exact Or.inl ha
          · refine Or.inr ⟨f, List.mem_cons_self .., ?_⟩
            rw [List.mem_singleton.mp hb]
      · exact Or.inl h1
    · exact Or.inr ⟨f2, List.mem_cons_of_mem _ hf2, hf2n⟩

/-- C6 amended: after the prune pass of overlay sync, every entry of the
flattened target tree whose Filename is not in the overlay S and whose
absolute path is not in ExtraDstFiles has been removed; consequently no
file of the target snapshot that the hash tree can see (all path
components non-dot-prefixed) remains on disk unless it is in S or in
ExtraDstFiles, and every file the copy pass wrote is in S.  Dot-prefixed
entries are invisible to the hash tree and may remain (see the
counterexample). -/
theorem c6_prune_removes_untracked_visible_files
    (parts : List (String × Node)) (dstPath : String) (dstFs : List FsEntry)
    (dstNode0 : Node) (extras : List String) (disk : Disk)
    (fetch : String → String → List Nat)
    (hwf : wfList dstFs = true)
    (hok : (readDir dstFs dstNode0).1 = true)
    (hname : dstNode0.name = "")
    (segs : List String) (cont : List Nat)
    (hfile : (segs, cont) ∈ filesOfList dstFs)
    (hvis : ∀ s ∈ segs, fileIgnored s = false)
    (hnotsrc : ∀ f ∈ srcOverlay parts, f.filename ≠ joinSegs segs)
    (hnotextra : ¬ extras.contains (pjoin dstPath (joinSegs segs)) = true) :
    diskGet (projectSync parts dstPath (readDir dstFs dstNode0).2 extras disk fetch).disk
        (joinSegs segs) = none ∧
    ∀ path ∈ (projectSync parts dstPath (readDir dstFs dstNode0).2 extras disk fetch).copies,
      ∃ f ∈ (projectSync parts dstPath (readDir dstFs dstNode0).2 extras disk fetch).srcTree,
        f.filename = path := by
  have hpath : (readDir dstFs dstNode0).2.hasPath segs :=
    (readDirGo_covers dstFs dstNode0 [] [] hok hwf).1 (segs, cont) hfile hvis
  have hresname : (readDir dstFs dstNode0).2.name = "" := by
    rw [readDir, readDirGo_name]
    exact hname
  obtain ⟨g, hgmem, hgname⟩ :=
    hasPath_mem_flatten segs (readDir dstFs dstNode0).2 dstPath "" hpath
  have hgname2 : g.filename = joinSegs segs := by
    rw [hgname, hresname]
    rfl
  have hgpfx : g.pfx = dstPath :=
    flattenOne_pfx (readDir dstFs dstNode0).2 dstPath "" g hgmem
  constructor
  · rw [← hgname2]
    dsimp only [projectSync]
    refine syncPrunePass_removes (srcOverlay parts)
      ((readDir dstFs dstNode0).2.flatten dstPath) extras _ g hgmem ?_ ?_
    · rw [hgname2]
      exact FindFile_neg_of_not_mem _ _ hnotsrc
    · rw [hgpfx, hgname2]
      exact hnotextra
  · intro path hp
    rcases syncCopyPass_copies_from_overlay (srcOverlay parts)
        ((readDir dstFs dstNode0).2.flatten dstPath) (disk, []) fetch path hp with h1 | h2
    · cases h1
    · exact h2

/-- Witness for the amended C6: a stale visible file x in the target is
gone after sync. -/
theorem c6_witness :
    diskGet (projectSync [("/m/static", (readDir [.file "y" 6 1 [2]] freshDirNode).2)] "/dst"
        (readDir [.file "x" 6 1 [1]] freshDirNode).2 [] [("x", [1])] (fun _ _ => [2])).disk
      (joinSegs ["x"]) = none :=
  (c6_prune_removes_untracked_visible_files
    [("/m/static", (readDir [.file "y" 6 1 [2]] freshDirNode).2)] "/dst"
    [.file "x" 6 1 [1]] freshDirNode [] [("x", [1])] (fun _ _ => [2])
    (by decide) (by decide) rfl ["x"] [1] (by decide) (by decide)
    (by decide) (by decide)).1
